import Mathlib

/-!
Verification of the `acmd` command-line sub-command dispatcher library.

Strings are modelled as lists of natural numbers (the character codes that Go
iterates over).  Handlers, which are Go function values, are modelled as
abstract identifiers resolved through an explicit handler environment.
-/

/-- Strings are modelled as lists of character codes. -/
abbrev Str := List Nat

/-- Conversion from Lean string literals into the model representation. -/
def str (s : String) : Str := s.data.map Char.toNat

/-! ## Edit-distance matcher: faithful embedding of `strDistance` and `min3` -/

/-- Embedding of `min3` from the source, with its exact branch structure:
`if a < b { if a < c { return a } }; if b < c { return b }; return c`. -/
def min3 (a b c : Nat) : Nat :=
  if a < b ∧ a < c then a
  else if b < c then b
  else c

/-- Embedding of one iteration sweep of the inner `for j` loop of `strDistance`.
The state is the remaining suffix of `a`, the corresponding suffix of the row
array `x` (so that its head is `x[j-1]` and the head of its tail is `x[j]`),
and `prev` which holds the value of the current row at column `j-1`.  The Go
code writes `x[j-1] = prev` as it moves right and finally stores `x[lenA] = prev`
after the loop; functionally the sweep returns the fully updated row. -/
def nextRow (bi : Nat) : Str → List Nat → Nat → List Nat
  | [], _, prev => [prev]
  | _ :: _, [], prev => [prev]
  | aj :: arest, xprev :: xrest, prev =>
      let current := if bi = aj then xprev
        else min3 (xprev + 1) (prev + 1) (xrest.headD 0 + 1)
      prev :: nextRow bi arest xrest current

/-- Embedding of the outer `for i` loop of `strDistance`: one `nextRow` sweep
per character of `b`, with the row counter `i` as the initial `prev`. -/
def runRows (a : Str) : Str → List Nat → Nat → List Nat
  | [], x, _ => x
  | bi :: brest, x, i => runRows a brest (nextRow bi a x i) (i + 1)

/-- Embedding of `strDistance` from the source: the three early returns, the
swap that makes `a` the shorter string, the row array initialised to
`0, 1, ..., lenA`, the double loop, and the final read of `x[lenA]`. -/
def strDistance (a b : Str) : Nat :=
  if a = [] then b.length
  else if b = [] then a.length
  else if a = b then 0
  else
    let p := if a.length > b.length then (b, a) else (a, b)
    (runRows p.1 p.2 (List.range (p.1.length + 1)) 1).getD p.1.length 0

/-! ## The classic Levenshtein distance, as the specification describes it -/

/-- Modelled from the spec: the classic Levenshtein recurrence, the minimum
cost of aligning the two lists where matching characters are free and
substitutions, deletions and insertions cost one each. -/
def lev : Str → Str → Nat
  | [], ys => ys.length
  | x :: xs, [] => (x :: xs).length
  | x :: xs, y :: ys =>
      min3 (lev xs ys + (if x = y then 0 else 1))
           (lev xs (y :: ys) + 1)
           (lev (x :: xs) ys + 1)
termination_by xs ys => xs.length + ys.length
decreasing_by all_goals simp_arith

/-- Modelled from the spec: one single-character edit operation performed
anywhere in a string, either inserting a character, deleting a character or
substituting one character for another. -/
inductive EStep : Str → Str → Prop
  | insert (u v : Str) (x : Nat) : EStep (u ++ v) (u ++ x :: v)
  | delete (u v : Str) (x : Nat) : EStep (u ++ x :: v) (u ++ v)
  | subst (u v : Str) (x y : Nat) : EStep (u ++ x :: v) (u ++ y :: v)

/-- Modelled from the spec: `NSteps a b n` says that `a` can be transformed
into `b` by a sequence of exactly `n` single-character edit operations. -/
inductive NSteps : Str → Str → Nat → Prop
  | refl (a : Str) : NSteps a a 0
  | step {a b c : Str} {n : Nat} : EStep a b → NSteps b c n → NSteps a c (n + 1)

/-- Edit scripts in alignment form, processing both strings from the head:
copy a matching character for free, or substitute, insert or delete at the
current position for cost one.  Used as scaffolding between `lev` and
`NSteps`. -/
inductive Edit : Str → Str → Nat → Prop
  | nil : Edit [] [] 0
  | copy (c : Nat) {xs ys : Str} {n : Nat} : Edit xs ys n → Edit (c :: xs) (c :: ys) n
  | subst (a b : Nat) {xs ys : Str} {n : Nat} : Edit xs ys n → Edit (a :: xs) (b :: ys) (n + 1)
  | insert (b : Nat) {xs ys : Str} {n : Nat} : Edit xs ys n → Edit xs (b :: ys) (n + 1)
  | delete (a : Nat) {xs ys : Str} {n : Nat} : Edit xs ys n → Edit (a :: xs) ys (n + 1)

/-! ### Basic facts about `min3` and `lev` -/

theorem min3_eq (a b c : Nat) : min3 a b c = min a (min b c) := by
  unfold min3
  split
  · omega
  · split <;> omega

theorem lev_nil_left (ys : Str) : lev [] ys = ys.length := by
  rw [lev]

theorem lev_nil_right (xs : Str) : lev xs [] = xs.length := by
  cases xs <;> rw [lev]

theorem lev_cons_cons (x y : Nat) (xs ys : Str) :
    lev (x :: xs) (y :: ys) =
      min3 (lev xs ys + (if x = y then 0 else 1))
           (lev xs (y :: ys) + 1)
           (lev (x :: xs) ys + 1) := by
  rw [lev]

/-- Expansion on the right: prepending a character to the second string
increases the distance by at most one. -/
theorem lev_le_cons_right (xs ys : Str) (y : Nat) : lev xs (y :: ys) ≤ lev xs ys + 1 := by
  cases xs with
  | nil => simp [lev_nil_left]
  | cons x xs => rw [lev_cons_cons, min3_eq]; omega

/-- Expansion on the left: prepending a character to the first string
increases the distance by at most one. -/
theorem lev_le_cons_left (xs ys : Str) (x : Nat) : lev (x :: xs) ys ≤ lev xs ys + 1 := by
  cases ys with
  | nil => simp [lev_nil_right]
  | cons y ys => rw [lev_cons_cons, min3_eq]; omega

/-- Contraction on the right: removing the head of the second string decreases
the distance by at most one. -/
theorem lev_cons_right_le (xs ys : Str) (y : Nat) : lev xs ys ≤ lev xs (y :: ys) + 1 := by
  induction xs generalizing ys with
  | nil => simp [lev_nil_left]; omega
  | cons x xs ih =>
      have h1 := lev_le_cons_left xs ys x
      have h2 := ih ys
      rw [lev_cons_cons, min3_eq]
      omega

/-- Contraction on the left: removing the head of the first string decreases
the distance by at most one. -/
theorem lev_cons_left_le (xs ys : Str) (x : Nat) : lev xs ys ≤ lev (x :: xs) ys + 1 := by
  induction ys generalizing xs with
  | nil => simp [lev_nil_right]; omega
  | cons y ys ih =>
      have h1 := lev_le_cons_right xs ys y
      have h2 := ih xs
      rw [lev_cons_cons, min3_eq]
      omega

/-- When the heads match, the Levenshtein distance is the distance of the
tails: the match shortcut used by the implementation is sound. -/
theorem lev_cons_same (x : Nat) (xs ys : Str) : lev (x :: xs) (x :: ys) = lev xs ys := by
  have h1 := lev_cons_right_le xs ys x
  have h2 := lev_cons_left_le xs ys x
  rw [lev_cons_cons, min3_eq]
  have h3 : (if x = x then 0 else 1) = 0 := by simp
  rw [h3]
  omega

theorem lev_self (xs : Str) : lev xs xs = 0 := by
  induction xs with
  | nil => rw [lev_nil_left]; rfl
  | cons x xs ih => rw [lev_cons_same, ih]

/-! ### `lev` is the least cost of an alignment -/

theorem edit_nil_left (ys : Str) : Edit [] ys ys.length := by
  induction ys with
  | nil => exact Edit.nil
  | cons y ys ih => exact Edit.insert y ih

theorem edit_nil_right (xs : Str) : Edit xs [] xs.length := by
  induction xs with
  | nil => exact Edit.nil
  | cons x xs ih => exact Edit.delete x ih

/-- An alignment of cost `lev a b` exists. -/
theorem edit_lev (a b : Str) : Edit a b (lev a b) := by
  induction a, b using lev.induct with
  | case1 ys => rw [lev_nil_left]; exact edit_nil_left ys
  | case2 x xs => rw [lev_nil_right]; exact edit_nil_right (x :: xs)
  | case3 x xs y ys ih1 ih2 ih3 =>
      rw [lev_cons_cons, min3_eq]
      rcases Nat.lt_trichotomy (lev xs ys + (if x = y then 0 else 1))
          (min (lev xs (y :: ys) + 1) (lev (x :: xs) ys + 1)) with h | h | h
      · rw [min_eq_left (Nat.le_of_lt h)]
        by_cases hxy : x = y
        · subst hxy; simpa using Edit.copy x ih1
        · rw [if_neg hxy]; exact Edit.subst x y ih1
      · rw [min_eq_left (Nat.le_of_eq h)]
        by_cases hxy : x = y
        · subst hxy; simpa using Edit.copy x ih1
        · rw [if_neg hxy]; exact Edit.subst x y ih1
      · rw [min_eq_right (Nat.le_of_lt h)]
        rcases Nat.le_total (lev xs (y :: ys) + 1) (lev (x :: xs) ys + 1) with h2 | h2
        · rw [min_eq_left h2]; exact Edit.delete x ih2
        · rw [min_eq_right h2]; exact Edit.insert y ih3

/-- No alignment costs less than `lev a b`. -/
theorem lev_le_of_edit {a b : Str} {n : Nat} (h : Edit a b n) : lev a b ≤ n := by
  induction h with
  | nil => rw [lev_nil_left]; exact Nat.le_refl _
  | copy c h ih => rw [lev_cons_same]; exact ih
  | subst x y h ih =>
      rw [lev_cons_cons, min3_eq]
      have : (if x = y then 0 else 1) ≤ 1 := by split <;> omega
      omega
  | insert y h ih =>
      rename_i xs ys n
      have := lev_le_cons_right xs ys y
      omega
  | delete x h ih =>
      rename_i xs ys n
      have := lev_le_cons_left xs ys x
      omega

/-- Alignments are symmetric: swapping the two strings swaps insertions and
deletions and keeps the cost. -/
theorem edit_symm {a b : Str} {n : Nat} (h : Edit a b n) : Edit b a n := by
  induction h with
  | nil => exact Edit.nil
  | copy c _ ih => exact Edit.copy c ih
  | subst x y _ ih => exact Edit.subst y x ih
  | insert y _ ih => exact Edit.delete y ih
  | delete x _ ih => exact Edit.insert x ih

theorem lev_symm (a b : Str) : lev a b = lev b a :=
  Nat.le_antisymm (lev_le_of_edit (edit_symm (edit_lev b a)))
    (lev_le_of_edit (edit_symm (edit_lev a b)))

/-! ### Alignments and reversal, giving the recurrence at the tail -/

theorem edit_snoc_copy {a b : Str} {n : Nat} (c : Nat) (h : Edit a b n) :
    Edit (a ++ [c]) (b ++ [c]) n := by
  induction h with
  | nil => exact Edit.copy c Edit.nil
  | copy d _ ih => exact Edit.copy d ih
  | subst x y _ ih => exact Edit.subst x y ih
  | insert y _ ih => exact Edit.insert y ih
  | delete x _ ih => exact Edit.delete x ih

theorem edit_snoc_subst {a b : Str} {n : Nat} (x y : Nat) (h : Edit a b n) :
    Edit (a ++ [x]) (b ++ [y]) (n + 1) := by
  induction h with
  | nil => exact Edit.subst x y Edit.nil
  | copy d _ ih => exact Edit.copy d ih
  | subst u v _ ih => exact Edit.subst u v ih
  | insert v _ ih => exact Edit.insert v ih
  | delete u _ ih => exact Edit.delete u ih

theorem edit_snoc_insert {a b : Str} {n : Nat} (y : Nat) (h : Edit a b n) :
    Edit a (b ++ [y]) (n + 1) := by
  induction h with
  | nil => exact Edit.insert y Edit.nil
  | copy d _ ih => exact Edit.copy d ih
  | subst u v _ ih => exact Edit.subst u v ih
  | insert v _ ih => exact Edit.insert v ih
  | delete u _ ih => exact Edit.delete u ih

theorem edit_snoc_delete {a b : Str} {n : Nat} (x : Nat) (h : Edit a b n) :
    Edit (a ++ [x]) b (n + 1) := by
  induction h with
  | nil => exact Edit.delete x Edit.nil
  | copy d _ ih => exact Edit.copy d ih
  | subst u v _ ih => exact Edit.subst u v ih
  | insert v _ ih => exact Edit.insert v ih
  | delete u _ ih => exact Edit.delete u ih

theorem edit_reverse {a b : Str} {n : Nat} (h : Edit a b n) :
    Edit a.reverse b.reverse n := by
  induction h with
  | nil => exact Edit.nil
  | copy c _ ih => simpa using edit_snoc_copy c ih
  | subst x y _ ih => simpa using edit_snoc_subst x y ih
  | insert y _ ih => simpa using edit_snoc_insert y ih
  | delete x _ ih => simpa using edit_snoc_delete x ih

theorem lev_reverse (a b : Str) : lev a.reverse b.reverse = lev a b :=
  Nat.le_antisymm (lev_le_of_edit (edit_reverse (edit_lev a b)))
    (by simpa using lev_le_of_edit (edit_reverse (edit_lev a.reverse b.reverse)))

/-- The Levenshtein recurrence also holds at the tail of the two strings. -/
theorem lev_snoc_snoc (p q : Str) (c d : Nat) :
    lev (p ++ [c]) (q ++ [d]) =
      min3 (lev p q + (if c = d then 0 else 1))
           (lev p (q ++ [d]) + 1)
           (lev (p ++ [c]) q + 1) := by
  have h1 : lev (p ++ [c]) (q ++ [d]) = lev (c :: p.reverse) (d :: q.reverse) := by
    rw [← lev_reverse]; simp
  have h2 : lev p (q ++ [d]) = lev p.reverse (d :: q.reverse) := by
    rw [← lev_reverse]; simp
  have h3 : lev (p ++ [c]) q = lev (c :: p.reverse) q.reverse := by
    rw [← lev_reverse]; simp
  have h4 : lev p q = lev p.reverse q.reverse := by rw [lev_reverse]
  rw [h1, h2, h3, h4, lev_cons_cons]

/-- The match shortcut at the tail of the two strings. -/
theorem lev_snoc_same (p q : Str) (c : Nat) :
    lev (p ++ [c]) (q ++ [c]) = lev p q := by
  have h1 : lev (p ++ [c]) (q ++ [c]) = lev (c :: p.reverse) (c :: q.reverse) := by
    rw [← lev_reverse]; simp
  rw [h1, lev_cons_same, lev_reverse]

/-! ### Single edits anywhere in the string change `lev` by at most one -/

theorem lev_subst_head_le (v b : Str) (x y : Nat) :
    lev (x :: v) b ≤ lev (y :: v) b + 1 := by
  induction b with
  | nil => simp [lev_nil_right]
  | cons d b' ih =>
      have hx : (if x = d then 0 else 1) ≤ 1 := by split <;> omega
      rw [lev_cons_cons, lev_cons_cons, min3_eq, min3_eq]
      omega

/-- Deleting a character anywhere in the first string decreases the distance
by at most one. -/
theorem lev_del_mid_le (u : Str) :
    ∀ (b v : Str) (x : Nat), lev (u ++ v) b ≤ lev (u ++ x :: v) b + 1 := by
  induction u with
  | nil =>
      intro b v x
      simpa using lev_cons_left_le v b x
  | cons c u ih =>
      intro b
      induction b with
      | nil =>
          intro v x
          simp [lev_nil_right]
          omega
      | cons d b' ihb =>
          intro v x
          have ha := ih b' v x
          have hb := ih (d :: b') v x
          have hc := ihb v x
          simp only [List.cons_append] at *
          rw [lev_cons_cons, lev_cons_cons, min3_eq, min3_eq]
          omega

/-- Inserting a character anywhere in the first string increases the distance
by at most one. -/
theorem lev_ins_mid_le (u : Str) :
    ∀ (b v : Str) (x : Nat), lev (u ++ x :: v) b ≤ lev (u ++ v) b + 1 := by
  induction u with
  | nil =>
      intro b v x
      simpa using lev_le_cons_left v b x
  | cons c u ih =>
      intro b
      induction b with
      | nil =>
          intro v x
          simp [lev_nil_right]
          omega
      | cons d b' ihb =>
          intro v x
          have ha := ih b' v x
          have hb := ih (d :: b') v x
          have hc := ihb v x
          simp only [List.cons_append] at *
          rw [lev_cons_cons, lev_cons_cons, min3_eq, min3_eq]
          omega

/-- Substituting a character anywhere in the first string changes the distance
by at most one. -/
theorem lev_subst_mid_le (u : Str) :
    ∀ (b v : Str) (x y : Nat), lev (u ++ x :: v) b ≤ lev (u ++ y :: v) b + 1 := by
  induction u with
  | nil =>
      intro b v x y
      simpa using lev_subst_head_le v b x y
  | cons c u ih =>
      intro b
      induction b with
      | nil =>
          intro v x y
          simp [lev_nil_right]
      | cons d b' ihb =>
          intro v x y
          have ha := ih b' v x y
          have hb := ih (d :: b') v x y
          have hc := ihb v x y
          simp only [List.cons_append] at *
          rw [lev_cons_cons, lev_cons_cons, min3_eq, min3_eq]
          omega

/-- One edit step changes the distance to any third string by at most one. -/
theorem lev_le_of_estep {a a' : Str} (h : EStep a a') (b : Str) :
    lev a b ≤ lev a' b + 1 := by
  cases h with
  | insert u v x => exact lev_del_mid_le u b v x
  | delete u v x => exact lev_ins_mid_le u b v x
  | subst u v x y => exact lev_subst_mid_le u b v x y

/-- No edit sequence is shorter than the Levenshtein distance. -/
theorem lev_le_of_nsteps {a b : Str} {n : Nat} (h : NSteps a b n) : lev a b ≤ n := by
  induction h with
  | refl a => rw [lev_self]
  | @step x y z m hs _ ih =>
      have := lev_le_of_estep hs z
      omega

/-! ### An edit sequence of length `lev a b` exists -/

theorem estep_cons {a b : Str} (c : Nat) (h : EStep a b) : EStep (c :: a) (c :: b) := by
  cases h with
  | insert u v x => simpa using EStep.insert (c :: u) v x
  | delete u v x => simpa using EStep.delete (c :: u) v x
  | subst u v x y => simpa using EStep.subst (c :: u) v x y

theorem nsteps_cons {a b : Str} {n : Nat} (c : Nat) (h : NSteps a b n) :
    NSteps (c :: a) (c :: b) n := by
  induction h with
  | refl a => exact NSteps.refl _
  | step hs _ ih => exact NSteps.step (estep_cons c hs) ih

theorem nsteps_of_edit {a b : Str} {n : Nat} (h : Edit a b n) : NSteps a b n := by
  induction h with
  | nil => exact NSteps.refl _
  | copy c _ ih => exact nsteps_cons c ih
  | @subst x y xs ys m _ ih =>
      exact NSteps.step (by simpa using EStep.subst [] xs x y) (nsteps_cons y ih)
  | @insert y xs ys m _ ih =>
      exact NSteps.step (by simpa using EStep.insert [] xs y) (nsteps_cons y ih)
  | @delete x xs ys m _ ih =>
      exact NSteps.step (by simpa using EStep.delete [] xs x) ih

/-- An edit sequence of length exactly `lev a b` exists. -/
theorem nsteps_lev (a b : Str) : NSteps a b (lev a b) :=
  nsteps_of_edit (edit_lev a b)

/-! ### Correctness of the rolling-array dynamic program -/

/-- The list of prefixes of `p ++ r` that extend `p`: the column labels of the
dynamic-programming row. -/
def prefs (p : Str) : Str → List Str
  | [] => [p]
  | c :: r => p :: prefs (p ++ [c]) r

theorem prefs_map_getD (f : Str → Nat) :
    ∀ (r p : Str), ((prefs p r).map f).getD r.length 0 = f (p ++ r) := by
  intro r
  induction r with
  | nil => intro p; simp [prefs]
  | cons c r ih =>
      intro p
      have := ih (p ++ [c])
      simp only [prefs, List.map_cons, List.length_cons, List.getD_cons_succ]
      simpa using this

theorem prefs_map_lev_nil (a : Str) :
    ∀ p : Str, (prefs p a).map (fun s => lev s []) = List.range' p.length (a.length + 1) := by
  induction a with
  | nil => intro p; simp [prefs, lev_nil_right]
  | cons c r ih =>
      intro p
      have h := ih (p ++ [c])
      simp only [lev_nil_right] at h
      simp only [prefs, List.map_cons, List.length_cons, lev_nil_right]
      rw [List.range'_succ]
      simpa using h

/-- One sweep of the inner loop turns the row for prefix `q` of `b` into the
row for prefix `q ++ [d]`. -/
theorem nextRow_spec (d : Nat) :
    ∀ (rest p q : Str),
      nextRow d rest ((prefs p rest).map (fun s => lev s q)) (lev p (q ++ [d])) =
        (prefs p rest).map (fun s => lev s (q ++ [d])) := by
  intro rest
  induction rest with
  | nil => intro p q; simp [prefs, nextRow]
  | cons c r ih =>
      intro p q
      simp only [prefs, List.map_cons, nextRow]
      have hhead : ((prefs (p ++ [c]) r).map (fun s => lev s q)).headD 0 = lev (p ++ [c]) q := by
        cases r <;> simp [prefs]
      have hcur :
          (if d = c then lev p q
            else min3 (lev p q + 1) (lev p (q ++ [d]) + 1)
              (((prefs (p ++ [c]) r).map (fun s => lev s q)).headD 0 + 1)) =
          lev (p ++ [c]) (q ++ [d]) := by
        rw [hhead]
        by_cases hdc : d = c
        · rw [if_pos hdc, hdc, lev_snoc_same]
        · rw [if_neg hdc, lev_snoc_snoc p q c d]
          have hcd : c ≠ d := fun h => hdc h.symm
          rw [if_neg hcd]
      rw [hcur, ih (p ++ [c]) q]

/-- Running the remaining rows turns the row for prefix `q` into the row for
`q ++ brest`. -/
theorem runRows_spec (a : Str) :
    ∀ (brest q : Str),
      runRows a brest ((prefs [] a).map (fun s => lev s q)) (q.length + 1) =
        (prefs [] a).map (fun s => lev s (q ++ brest)) := by
  intro brest
  induction brest with
  | nil => intro q; simp [runRows]
  | cons d b' ih =>
      intro q
      simp only [runRows]
      have hprev : q.length + 1 = lev ([] : Str) (q ++ [d]) := by
        rw [lev_nil_left]; simp
      rw [hprev, nextRow_spec d a [] q, ← hprev]
      have h3 := ih (q ++ [d])
      simp only [List.length_append, List.length_cons, List.length_nil,
        List.append_assoc, List.cons_append, List.nil_append] at h3 ⊢
      exact h3

/-- The dynamic program computes the Levenshtein distance, with no early
return and no swap. -/
theorem runRows_lev (a b : Str) :
    (runRows a b (List.range (a.length + 1)) 1).getD a.length 0 = lev a b := by
  have hinit : List.range (a.length + 1) = (prefs [] a).map (fun s => lev s []) := by
    rw [prefs_map_lev_nil a [], List.range_eq_range']
    simp
  rw [hinit]
  have h1 : (1 : Nat) = (List.length ([] : Str)) + 1 := by simp
  rw [h1, runRows_spec a b []]
  simpa using prefs_map_getD (fun s => lev s b) a []

/-- Embedding matches specification: `strDistance` computes the Levenshtein
distance for all inputs. -/
theorem strDistance_eq_lev (a b : Str) : strDistance a b = lev a b := by
  unfold strDistance
  by_cases ha : a = []
  · rw [if_pos ha, ha, lev_nil_left]
  by_cases hb : b = []
  · rw [if_neg ha, if_pos hb, hb, lev_nil_right]
  by_cases hab : a = b
  · rw [if_neg ha, if_neg hb, if_pos hab, hab, lev_self]
  rw [if_neg ha, if_neg hb, if_neg hab]
  by_cases hlen : a.length > b.length
  · rw [if_pos hlen]
    simpa using (runRows_lev b a).trans (lev_symm b a)
  · rw [if_neg hlen]
    simpa using runRows_lev a b

/-! ## Claim C1 -/

/-- C1: `strDistance a b` computes the classic Levenshtein distance: for every
pair of strings it returns the minimum number of single-character insertions,
deletions, or substitutions transforming `a` into `b`; in particular
`distance kitten sitting = 3`, `distance empty hello = 5`,
`distance ab ba = 2`, and for all strings `distance a a = 0`,
`distance empty s = length s`, and `distance a b = distance b a`. -/
theorem C1_strDistance_levenshtein :
    (∀ a b : Str, NSteps a b (strDistance a b) ∧ ∀ n, NSteps a b n → strDistance a b ≤ n)
    ∧ strDistance (str "kitten") (str "sitting") = 3
    ∧ strDistance (str "") (str "hello") = 5
    ∧ strDistance (str "ab") (str "ba") = 2
    ∧ (∀ a : Str, strDistance a a = 0)
    ∧ (∀ s : Str, strDistance [] s = s.length)
    ∧ (∀ a b : Str, strDistance a b = strDistance b a) := by
  refine ⟨fun a b => ⟨?_, fun n h => ?_⟩, by decide, by decide, by decide,
    fun a => ?_, fun s => ?_, fun a b => ?_⟩
  · rw [strDistance_eq_lev]; exact nsteps_lev a b
  · rw [strDistance_eq_lev]; exact lev_le_of_nsteps h
  · rw [strDistance_eq_lev, lev_self]
  · rw [strDistance_eq_lev, lev_nil_left]
  · rw [strDistance_eq_lev, strDistance_eq_lev, lev_symm]

/-- Witness for C1: the minimality half applied at a concrete two-step edit
sequence from ab to ba. -/
theorem C1_strDistance_levenshtein_witness :
    strDistance (str "ab") (str "ba") ≤ 2 := by
  have h1 : str "ab" = [97, 98] := by decide
  have h2 : str "ba" = [98, 97] := by decide
  have h : NSteps (str "ab") (str "ba") 2 := by
    rw [h1, h2]
    exact NSteps.step (by simpa using EStep.subst [] [98] 97 98)
      (NSteps.step (by simpa using EStep.subst [98] [] 98 97) (NSteps.refl _))
  exact (C1_strDistance_levenshtein.1 (str "ab") (str "ba")).2 2 h

/-! ## Command-tree data model -/

/-- Embedding of the `Command` struct: name, optional alias (empty string
means absent), optional handler modelled as an abstract handler identifier
(Go function values cannot be compared, so handlers are resolved through an
explicit environment), and subcommands.  The `Description` and `IsHidden`
fields play no role in the verified claims. -/
inductive Cmd where
  | mk (name : Str) (aliasName : Str) (doF : Option Nat) (sub : List Cmd)

def Cmd.name : Cmd → Str
  | .mk n _ _ _ => n

def Cmd.aliasName : Cmd → Str
  | .mk _ a _ _ => a

def Cmd.doF : Cmd → Option Nat
  | .mk _ _ d _ => d

def Cmd.sub : Cmd → List Cmd
  | .mk _ _ _ s => s

theorem Cmd.sizeOf_sub_lt (c : Cmd) : sizeOf c.sub + 1 < sizeOf c := by
  cases c with
  | mk n a d s =>
      simp [Cmd.sub]
      cases n <;> cases a <;> simp <;> omega

/-- Embedding of the character test inside `isStringValid`: ASCII letters,
digits, dash and underscore. -/
def isNameRune (c : Nat) : Bool :=
  (65 ≤ c && c ≤ 90) || (97 ≤ c && c ≤ 122) || (48 ≤ c && c ≤ 57) || c == 45 || c == 95

/-- Embedding of `isStringValid` from the source: non-empty and every
character is a letter, digit, dash or underscore. -/
def isStringValid (s : Str) : Bool :=
  if s.length = 0 then false
  else s.all isNameRune

/-- The validation errors produced by `validateCommand` and
`validateSubcommands`, one constructor per `fmt.Errorf` in the source. -/
inductive VErr where
  | nilFunction (name : Str)
  | funcAndSub (name : Str)
  | reservedName (name : Str)
  | reservedAlias (a : Str)
  | invalidName (name : Str)
  | invalidAlias (a : Str)
  | dupName (name : Str)
  | dupAlias (a : Str)
deriving DecidableEq

/-- Lexicographic comparison of strings, as Go compares them with `<`. -/
def strLt : Str → Str → Bool
  | [], [] => false
  | [], _ :: _ => true
  | _ :: _, [] => false
  | x :: xs, y :: ys => if x < y then true else if y < x then false else strLt xs ys

def cmdLe (c1 c2 : Cmd) : Bool := !(strLt c2.name c1.name)

/-- Embedding of the `sort.Slice` call in `validateSubcommands`, sorting the
direct children by name.  `sort.Slice` is an unspecified (unstable) sort; the
model fixes insertion sort, which agrees with it whenever the keys are
distinct. -/
def sortCmds (cmds : List Cmd) : List Cmd :=
  cmds.insertionSort (fun a b => cmdLe a b = true)

mutual

/-- Embedding of `validateCommand`: the switch cases in source order, then the
recursion into subcommands. -/
def validateCommand (cmd : Cmd) : Except VErr Unit :=
  if cmd.doF = none ∧ cmd.sub.length = 0 then .error (.nilFunction cmd.name)
  else if cmd.doF ≠ none ∧ cmd.sub.length ≠ 0 then .error (.funcAndSub cmd.name)
  else if cmd.name = str "help" ∨ cmd.name = str "version" then .error (.reservedName cmd.name)
  else if cmd.aliasName = str "help" ∨ cmd.aliasName = str "version" then .error (.reservedAlias cmd.aliasName)
  else if isStringValid cmd.name = false then .error (.invalidName cmd.name)
  else if cmd.aliasName ≠ [] ∧ isStringValid cmd.aliasName = false then .error (.invalidAlias cmd.aliasName)
  else if cmd.sub.length ≠ 0 then validateSubcommands cmd.sub
  else .ok ()
termination_by sizeOf cmd
decreasing_by exact Cmd.sizeOf_sub_lt cmd

/-- Embedding of `validateSubcommands`: sort by name, then scan with a
growing set of seen names and aliases. -/
def validateSubcommands (cmds : List Cmd) : Except VErr Unit :=
  validateLoop (sortCmds cmds) []
termination_by sizeOf cmds + 1
decreasing_by
  have h := (List.perm_insertionSort (fun a b => cmdLe a b = true) cmds).sizeOf_eq_sizeOf
  simp only [sortCmds]
  omega

/-- The scanning loop of `validateSubcommands`.  The Go code inserts the name
and the non-empty alias into the set before calling `validateCommand`; since
an error aborts the loop, inserting after the call is equivalent and is what
the model does. -/
def validateLoop : List Cmd → List Str → Except VErr Unit
  | [], _ => .ok ()
  | c :: rest, seen =>
      if c.name ∈ seen then .error (.dupName c.name)
      else if c.aliasName ∈ seen then .error (.dupAlias c.aliasName)
      else
        match validateCommand c with
        | .error e => .error e
        | .ok _ =>
            validateLoop rest (seen ++ [c.name] ++ (if c.aliasName ≠ [] then [c.aliasName] else []))
termination_by l _ => sizeOf l
decreasing_by all_goals (simp; try omega)

end

/-! ## Suggestion step -/

/-- The scanning loop of `suggestCommand`, carrying the running minimum
distance and the best matching name. -/
def suggestLoop (got : Str) : List Cmd → Nat → Str → Str
  | [], _, best => best
  | c :: rest, minDist, best =>
      let dist := strDistance got c.name
      if dist < minDist then suggestLoop got rest dist c.name
      else suggestLoop got rest minDist best

/-- Embedding of `suggestCommand`: the running minimum starts at
`maxMatchDist + 1 = 3`, so that only names at distance at most 2 are ever
recorded, and the initial best match is the empty string. -/
def suggestCommand (got : Str) (cmds : List Cmd) : Str :=
  suggestLoop got cmds (2 + 1) []

/-! ## Resolver -/

/-- The result of `findCmd`: a selected handler with its residual arguments,
one of the two error outcomes, or the two artifacts of modelling the
unbounded Go loop (`oob` for indexing `args[0]` of an empty slice, `looping`
for exhausting the fuel bound). -/
inductive FindRes where
  | found (h : Nat) (params : List Str)
  | errNoArgs
  | errNotFound (selected : Str) (suggestion : Str)
  | oob
  | looping
deriving DecidableEq

/-- The scan of the current children: the first command whose name or alias
equals the selected token, exactly as the `range` loop in `findCmd` does. -/
def lookupCmd (selected : Str) (cmds : List Cmd) : Option Cmd :=
  cmds.find? (fun c => selected == c.name || selected == c.aliasName)

/-- Embedding of the unbounded `for` loop of `findCmd`, with explicit fuel.
On a miss the returned error carries the selected token together with the
suggestion computed over the current children, modelling what
`errNotFoundAndSuggest` writes to the output sink and returns. -/
def findLoop : Nat → List Cmd → List Str → FindRes
  | 0, _, _ => .looping
  | _ + 1, _, [] => .oob
  | fuel + 1, cmds, selected :: params =>
      match lookupCmd selected cmds with
      | some c =>
          match c.doF with
          | some h => .found h params
          | none =>
              if params = [] then .errNoArgs
              else findLoop fuel c.sub params
      | none => .errNotFound selected (suggestCommand selected cmds)

/-- Embedding of `findCmd`; claim C9 shows the fuel `args.length` is never
exhausted when `args` is non-empty. -/
def findCmd (cmds : List Cmd) (args : List Str) : FindRes :=
  findLoop args.length cmds args

/-! ## Errors and the runner facade -/

/-- The Go error values that the runner produces or receives: the
exit-code-carrying `ErrCode`, the sentinel `ErrNoArgs`, validation errors,
the two resolution errors of `findCmd`, wrapping as produced by `fmt.Errorf`
with a `%w` verb (a message prefix in front of a wrapped inner error), plain
handler-made message errors, and an artifact constructor for the two loop
outcomes that claim C9 proves unreachable. -/
inductive GoErr where
  | errCode (n : Int)
  | noArgs
  | vErr (e : VErr)
  | notFound (selected : Str)
  | noArgsForCmd
  | wrap (pre : Str) (inner : GoErr)
  | msg (s : Str)
  | loopArtifact
deriving DecidableEq

/-- Go `%q` formatting of a plain token: the token surrounded by double
quotes (faithful for tokens without escape-needing characters, which is all
the model uses). -/
def quoteStr (s : Str) : Str := str "\"" ++ s ++ str "\""

/-- The `Error()` text of each validation error, from the `fmt.Errorf` calls
in the source. -/
def vErrMsg : VErr → Str
  | .nilFunction n => str "command " ++ quoteStr n ++ str " function cannot be nil or must have subcommands"
  | .funcAndSub n => str "command " ++ quoteStr n ++ str " function cannot be set and have subcommands"
  | .reservedName n => str "command " ++ quoteStr n ++ str " is reserved"
  | .reservedAlias a => str "command alias " ++ quoteStr a ++ str " is reserved"
  | .invalidName n => str "command " ++ quoteStr n ++ str " must contains only letters, digits, - and _"
  | .invalidAlias a => str "command alias " ++ quoteStr a ++ str " must contains only letters, digits, - and _"
  | .dupName n => str "duplicate command " ++ quoteStr n
  | .dupAlias a => str "duplicate command alias " ++ quoteStr a

/-- Decimal digits of a natural number accumulated as character codes, with
a fuel argument as in the standard library digit printer. -/
def natToStrCore : Nat → Nat → Str → Str
  | 0, _, acc => acc
  | fuel + 1, n, acc =>
      if n < 10 then (48 + n) :: acc
      else natToStrCore fuel (n / 10) ((48 + n % 10) :: acc)

/-- The decimal representation of a natural number as character codes. -/
def natToStr (n : Nat) : Str := natToStrCore (n + 1) n []

/-- Go percent-d formatting of an integer as character codes. -/
def intToStr : Int → Str
  | .ofNat n => natToStr n
  | .negSucc n => 45 :: natToStr (n + 1)

/-- The `Error()` text of each modelled Go error. -/
def errMsg : GoErr → Str
  | .errCode n => str "code " ++ intToStr n
  | .noArgs => str "no args provided"
  | .vErr e => vErrMsg e
  | .notFound sel => str "no such command " ++ quoteStr sel
  | .noArgsForCmd => str "no args for command provided"
  | .wrap p inner => p ++ errMsg inner
  | .msg s => s
  | .loopArtifact => []

/-- Embedding of `errors.As(err, &errCode)` with an `ErrCode` target: walk
the unwrap chain and return the first `ErrCode` payload found. -/
def asErrCode : GoErr → Option Int
  | .errCode n => some n
  | .wrap _ inner => asErrCode inner
  | _ => none

/-- The configuration fields the claims exercise.  `args` models a non-nil
`Config.Args` slice (with nil `Args` the source falls back to the ambient
`os.Args`, which is outside the model). -/
structure Config where
  appName : Str
  args : List Str

/-- Embedding of `Runner.init` for a nil `opts` slice (the claims pass no
options, and `ParseOptions` is skipped for nil `opts`): the empty-args check,
the `AppName` default from the first argument, stripping the first argument,
the second empty check, and validation through the fake root command.  The
returned state is the resolved app name and the remaining arguments. -/
def runnerInit (cfg : Config) (cmds : List Cmd) : Except GoErr (Str × List Str) :=
  if cfg.args.length = 0 then .error .noArgs
  else if cfg.args.tail.length = 0 then .error .noArgs
  else
    match validateCommand (Cmd.mk (str "root") [] none cmds) with
    | .error e => .error (.vErr e)
    | .ok _ =>
        .ok (if cfg.appName = [] then cfg.args.headD [] else cfg.appName, cfg.args.tail)

/-- The two builtin commands appended by `init` after validation.  Their
handlers are modelled by the reserved identifiers 0 and 1. -/
def builtinCmds : List Cmd :=
  [Cmd.mk (str "help") [] (some 0) [], Cmd.mk (str "version") [] (some 1) []]

/-- Embedding of `Runner.Run`: return the wrapped init error if init failed,
otherwise dispatch through `findCmd` over the sorted command list with the
builtins appended, run the selected handler through the environment `env`,
and wrap a non-nil handler error in the got-error prefix.  The two loop
artifacts of the `findCmd` model are mapped to `loopArtifact`; claim C9 shows
they cannot occur since init guarantees a non-empty argument vector. -/
def runnerRun (env : Nat → List Str → Option GoErr) (cfg : Config) (cmds : List Cmd) :
    Except GoErr Unit :=
  match runnerInit cfg cmds with
  | .error e => .error (.wrap (str "init error: ") e)
  | .ok s =>
      match findCmd (sortCmds (cmds ++ builtinCmds)) s.2 with
      | .found h params =>
          match env h params with
          | none => .ok ()
          | some e => .error (.wrap (str "got error: ") e)
      | .errNoArgs => .error .noArgsForCmd
      | .errNotFound sel _ => .error (.notFound sel)
      | .oob => .error .loopArtifact
      | .looping => .error .loopArtifact

/-- Embedding of `Runner.Exit`: the requested process exit status together
with the lines printed to the output sink.  A nil error exits 0 and prints
nothing; otherwise `errors.As` extracts an exit code (default 1) and the
line `appName: message` is printed before exiting. -/
def runnerExit (appName : Str) (err : Option GoErr) : Int × List Str :=
  match err with
  | none => (0, [])
  | some e => ((asErrCode e).getD 1, [appName ++ str ": " ++ errMsg e ++ str "\n"])

/-! ## Claim C2 -/

/-- Characterisation of the suggestion loop: either no scanned candidate beats
the running minimum and the running best is returned, or the first candidate
achieving the overall minimum (strictly below the running minimum) is
returned. -/
theorem suggestLoop_spec (got : Str) :
    ∀ (l : List Cmd) (minDist : Nat) (best : Str),
      ((∀ c ∈ l, minDist ≤ strDistance got c.name) ∧ suggestLoop got l minDist best = best)
      ∨ (∃ pre c post, l = pre ++ c :: post ∧
          suggestLoop got l minDist best = c.name ∧
          strDistance got c.name < minDist ∧
          (∀ d ∈ pre, strDistance got c.name < strDistance got d.name) ∧
          (∀ d ∈ l, strDistance got c.name ≤ strDistance got d.name)) := by
  intro l
  induction l with
  | nil => intro minDist best; exact Or.inl ⟨by simp, rfl⟩
  | cons c rest ih =>
      intro minDist best
      by_cases h : strDistance got c.name < minDist
      · have hloop : suggestLoop got (c :: rest) minDist best =
            suggestLoop got rest (strDistance got c.name) c.name := by
          simp [suggestLoop, h]
        rcases ih (strDistance got c.name) c.name with ⟨hall, hres⟩ | ⟨pre, c', post, hsplit, hres, hlt, hpre, hall⟩
        · refine Or.inr ⟨[], c, rest, by simp, ?_, h, by simp, ?_⟩
          · rw [hloop, hres]
          · intro d hd
            rcases List.mem_cons.mp hd with rfl | hd
            · exact Nat.le_refl _
            · exact hall d hd
        · refine Or.inr ⟨c :: pre, c', post, by rw [hsplit]; simp, ?_, by omega, ?_, ?_⟩
          · rw [hloop, hres]
          · intro d hd
            rcases List.mem_cons.mp hd with rfl | hd
            · omega
            · exact hpre d hd
          · intro d hd
            rcases List.mem_cons.mp hd with rfl | hd
            · omega
            · exact hall d (by rw [hsplit] at hd ⊢; exact hd)
      · have hloop : suggestLoop got (c :: rest) minDist best =
            suggestLoop got rest minDist best := by
          simp [suggestLoop, h]
        rcases ih minDist best with ⟨hall, hres⟩ | ⟨pre, c', post, hsplit, hres, hlt, hpre, hall⟩
        · refine Or.inl ⟨?_, by rw [hloop, hres]⟩
          intro d hd
          rcases List.mem_cons.mp hd with rfl | hd
          · omega
          · exact hall d hd
        · refine Or.inr ⟨c :: pre, c', post, by rw [hsplit]; simp, ?_, hlt, ?_, ?_⟩
          · rw [hloop, hres]
          · intro d hd
            rcases List.mem_cons.mp hd with rfl | hd
            · omega
            · exact hpre d hd
          · intro d hd
            rcases List.mem_cons.mp hd with rfl | hd
            · omega
            · exact hall d hd

theorem suggestLoop_names_only (got : Str) :
    ∀ (l l' : List Cmd) (minDist : Nat) (best : Str),
      l.map Cmd.name = l'.map Cmd.name →
      suggestLoop got l minDist best = suggestLoop got l' minDist best := by
  intro l
  induction l with
  | nil =>
      intro l' minDist best h
      have : l' = [] := by cases l' <;> simp_all
      rw [this]
  | cons c rest ih =>
      intro l' minDist best h
      cases l' with
      | nil => simp at h
      | cons c' rest' =>
          simp only [List.map_cons, List.cons.injEq] at h
          simp only [suggestLoop, h.1]
          split <;> exact ih rest' _ _ h.2

/-- C2: `suggestCommand got cmds` returns the candidate name with the minimum
edit distance to the target, considering only candidate names (never
aliases), breaking ties in favour of the first-seen candidate via a
strictly-less-than comparison; if the minimum distance over all candidates
exceeds 2 it returns the empty string.  Concretely, target fooo against
candidates for, foo, bar yields foo; target verZION against a list containing
version yields no suggestion while verZion yields version. -/
theorem C2_suggestCommand_spec :
    (∀ (got : Str) (cmds : List Cmd),
        (∀ c ∈ cmds, 2 < strDistance got c.name) → suggestCommand got cmds = [])
    ∧ (∀ (got : Str) (cmds : List Cmd),
        (∃ c ∈ cmds, strDistance got c.name ≤ 2) →
        ∃ pre c post, cmds = pre ++ c :: post ∧
          suggestCommand got cmds = c.name ∧
          strDistance got c.name ≤ 2 ∧
          (∀ d ∈ pre, strDistance got c.name < strDistance got d.name) ∧
          (∀ d ∈ cmds, strDistance got c.name ≤ strDistance got d.name))
    ∧ (∀ (got : Str) (cmds cmds' : List Cmd),
        cmds.map Cmd.name = cmds'.map Cmd.name →
        suggestCommand got cmds = suggestCommand got cmds')
    ∧ suggestCommand (str "fooo")
        [Cmd.mk (str "for") [] (some 0) [], Cmd.mk (str "foo") [] (some 1) [],
         Cmd.mk (str "bar") [] (some 2) []] = str "foo"
    ∧ suggestCommand (str "verZION")
        [Cmd.mk (str "for") [] (some 0) [], Cmd.mk (str "help") [] (some 1) [],
         Cmd.mk (str "version") [] (some 2) []] = []
    ∧ suggestCommand (str "verZion")
        [Cmd.mk (str "for") [] (some 0) [], Cmd.mk (str "help") [] (some 1) [],
         Cmd.mk (str "version") [] (some 2) []] = str "version" := by
  refine ⟨?_, ?_, ?_, by decide, by decide, by decide⟩
  · intro got cmds hfar
    rcases suggestLoop_spec got cmds (2 + 1) [] with ⟨_, hres⟩ | ⟨pre, c, post, hsplit, _, hlt, _, _⟩
    · exact hres
    · have hc : c ∈ cmds := by rw [hsplit]; simp
      have := hfar c hc
      omega
  · intro got cmds hnear
    rcases suggestLoop_spec got cmds (2 + 1) [] with ⟨hall, _⟩ | ⟨pre, c, post, hsplit, hres, hlt, hpre, hall⟩
    · rcases hnear with ⟨c, hc, hle⟩
      have := hall c hc
      omega
    · exact ⟨pre, c, post, hsplit, hres, by omega, hpre, hall⟩
  · intro got cmds cmds' h
    exact suggestLoop_names_only got cmds cmds' _ _ h

/-- Witness for C2: the no-suggestion half applied at a concrete list whose
single candidate is far from the target. -/
theorem C2_suggestCommand_spec_witness :
    suggestCommand (str "xyzxyz") [Cmd.mk (str "bar") [] (some 0) []] = [] :=
  C2_suggestCommand_spec.1 (str "xyzxyz") [Cmd.mk (str "bar") [] (some 0) []] (by decide)

/-! ## Claim C9 -/

/-- Fuel stability: for a non-empty argument vector, any fuel of at least
`args.length` computes the same result as fuel exactly `args.length`. -/
theorem findLoop_stable (args : List Str) :
    ∀ (cmds : List Cmd) (fuel : Nat), args ≠ [] → args.length ≤ fuel →
      findLoop fuel cmds args = findLoop args.length cmds args := by
  induction args with
  | nil => intro cmds fuel h _; exact absurd rfl h
  | cons a params ih =>
      intro cmds fuel _ hlen
      obtain ⟨f, rfl⟩ : ∃ f, fuel = f + 1 := ⟨fuel - 1, by simp at hlen; omega⟩
      simp only [findLoop, List.length_cons]
      cases hlk : lookupCmd a cmds with
      | none => rfl
      | some c =>
          dsimp only
          cases hdo : c.doF with
          | some h => simp only [hdo]
          | none =>
              simp only [hdo]
              by_cases hp : params = []
              · simp [hp]
              · simp only [if_neg hp]
                rw [ih c.sub f hp (by simp at hlen; omega)]

/-- For a non-empty argument vector the resolver never exhausts its fuel and
never indexes an empty argument slice: the descent always passes a non-empty,
strictly shorter slice. -/
theorem findCmd_no_artifact (args : List Str) :
    ∀ cmds : List Cmd, args ≠ [] →
      findCmd cmds args ≠ .looping ∧ findCmd cmds args ≠ .oob := by
  induction args with
  | nil => intro cmds h; exact absurd rfl h
  | cons a params ih =>
      intro cmds _
      unfold findCmd
      simp only [findLoop, List.length_cons]
      cases hlk : lookupCmd a cmds with
      | none => exact ⟨by simp, by simp⟩
      | some c =>
          dsimp only
          cases hdo : c.doF with
          | some h => simp only [hdo]; exact ⟨by simp, by simp⟩
          | none =>
              simp only [hdo]
              by_cases hp : params = []
              · simp [hp]
              · simp only [if_neg hp]
                exact ih c.sub hp

/-- C9: `findCmd` terminates for every command list and every non-empty
argument vector: each iteration either returns or descends with an argument
slice exactly one element shorter and still non-empty, so `args.length`
iterations of fuel always suffice (any larger fuel gives the same result) and
the `args[0]` read is always in bounds. -/
theorem C9_findCmd_terminates :
    ∀ (cmds : List Cmd) (args : List Str), args ≠ [] →
      (∀ fuel, args.length ≤ fuel → findLoop fuel cmds args = findCmd cmds args)
      ∧ findCmd cmds args ≠ .looping ∧ findCmd cmds args ≠ .oob := by
  intro cmds args h
  exact ⟨fun fuel hf => findLoop_stable args cmds fuel h hf, findCmd_no_artifact args cmds h⟩

/-- Witness for C9 at a concrete one-command tree and singleton argument
vector, with a fuel larger than needed. -/
theorem C9_findCmd_terminates_witness :
    findLoop 5 [Cmd.mk (str "foo") [] (some 7) []] [str "foo"] =
      findCmd [Cmd.mk (str "foo") [] (some 7) []] [str "foo"] :=
  (C9_findCmd_terminates [Cmd.mk (str "foo") [] (some 7) []] [str "foo"]
    (by decide)).1 5 (by decide)

/-! ## Sibling uniqueness and validated trees -/

/-- Two sibling commands collide when they share a name, share a non-empty
alias, or the name of one equals the non-empty alias of the other.  An empty
alias means the alias is absent and never collides. -/
def NoCollide (c1 c2 : Cmd) : Prop :=
  ¬(c1.name = c2.name
    ∨ (c1.aliasName = c2.aliasName ∧ c1.aliasName ≠ [])
    ∨ (c1.name = c2.aliasName ∧ c2.aliasName ≠ [])
    ∨ (c2.name = c1.aliasName ∧ c1.aliasName ≠ []))

theorem noCollide_symm {c1 c2 : Cmd} (h : NoCollide c1 c2) : NoCollide c2 c1 := by
  unfold NoCollide at *
  intro hcol
  apply h
  rcases hcol with h1 | ⟨h2a, h2b⟩ | ⟨h3a, h3b⟩ | ⟨h4a, h4b⟩
  · exact Or.inl h1.symm
  · exact Or.inr (Or.inl ⟨h2a.symm, h2a ▸ h2b⟩)
  · exact Or.inr (Or.inr (Or.inr ⟨h3a, h3b⟩))
  · exact Or.inr (Or.inr (Or.inl ⟨h4a, h4b⟩))

/-- A well-formed tree: at every node the direct children are pairwise
collision-free and have pattern-valid names. -/
inductive GoodTree : List Cmd → Prop
  | intro (l : List Cmd)
      (hpw : l.Pairwise NoCollide)
      (hvalid : ∀ c ∈ l, isStringValid c.name = true)
      (hsub : ∀ c ∈ l, GoodTree c.sub) : GoodTree l

theorem goodTree_pairwise {l : List Cmd} (h : GoodTree l) : l.Pairwise NoCollide := by
  cases h with | intro _ hpw _ _ => exact hpw

theorem goodTree_valid {l : List Cmd} (h : GoodTree l) : ∀ c ∈ l, isStringValid c.name = true := by
  cases h with | intro _ _ hvalid _ => exact hvalid

theorem goodTree_subtrees {l : List Cmd} (h : GoodTree l) : ∀ c ∈ l, GoodTree c.sub := by
  cases h with | intro _ _ _ hsub => exact hsub

theorem isStringValid_ne_nil {s : Str} (h : isStringValid s = true) : s ≠ [] := by
  intro hnil
  rw [hnil] at h
  simp [isStringValid] at h

/-- The facts about a command that follow from `validateCommand` succeeding:
its name is pattern-valid, a non-empty alias is pattern-valid, and its
subcommand list validates. -/
theorem validateCommand_ok_facts {c : Cmd} (h : validateCommand c = .ok ()) :
    isStringValid c.name = true
    ∧ (c.aliasName ≠ [] → isStringValid c.aliasName = true)
    ∧ (c.sub.length ≠ 0 → validateSubcommands c.sub = .ok ()) := by
  rw [validateCommand] at h
  split at h
  · exact absurd h (by simp)
  split at h
  · exact absurd h (by simp)
  split at h
  · exact absurd h (by simp)
  split at h
  · exact absurd h (by simp)
  split at h
  · exact absurd h (by simp)
  · rename_i hname
    split at h
    · exact absurd h (by simp)
    · rename_i halias
      have hn : isStringValid c.name = true := by
        revert hname
        cases isStringValid c.name <;> simp
      have ha : c.aliasName ≠ [] → isStringValid c.aliasName = true := by
        intro hne
        rcases not_and_or.mp halias with h1 | h2
        · exact absurd hne h1
        · revert h2
          cases isStringValid c.aliasName <;> simp
      split at h
      · exact ⟨hn, ha, fun _ => h⟩
      · rename_i hsub
        exact ⟨hn, ha, fun hc => absurd hc hsub⟩

/-- What a successful scan guarantees: every scanned command validates, its
name and alias avoid the incoming seen set, and the scanned commands are
pairwise collision-free. -/
theorem validateLoop_ok :
    ∀ (l : List Cmd) (seen : List Str), validateLoop l seen = .ok () →
      (∀ c ∈ l, validateCommand c = .ok () ∧ c.name ∉ seen ∧ c.aliasName ∉ seen)
      ∧ l.Pairwise NoCollide := by
  intro l
  induction l with
  | nil => intro seen _; exact ⟨by simp, List.Pairwise.nil⟩
  | cons c rest ih =>
      intro seen h
      rw [validateLoop] at h
      split at h
      · exact absurd h (by simp)
      split at h
      · exact absurd h (by simp)
      rename_i hn ha
      cases hvc : validateCommand c with
      | error e => simp only [hvc] at h; exact absurd h (by simp)
      | ok u =>
          cases u
          simp only [hvc] at h
          obtain ⟨hall, hpw⟩ := ih _ h
          have hsub : ∀ t ∈ seen,
              t ∈ seen ++ [c.name] ++ (if c.aliasName ≠ [] then [c.aliasName] else []) := by
            intro t ht; simp [ht]
          refine ⟨?_, ?_⟩
          · intro d hd
            rcases List.mem_cons.mp hd with rfl | hd
            · exact ⟨hvc, hn, ha⟩
            · obtain ⟨h1, h2, h3⟩ := hall d hd
              exact ⟨h1, fun hmem => h2 (hsub _ hmem), fun hmem => h3 (hsub _ hmem)⟩
          · refine List.Pairwise.cons ?_ hpw
            intro d hd
            obtain ⟨_, h2, h3⟩ := hall d hd
            have h2' : d.name ≠ c.name := fun heq => h2 (by simp [heq])
            have h2'' : c.aliasName ≠ [] → d.name ≠ c.aliasName :=
              fun hne heq => h2 (by simp [heq, hne])
            have h3' : d.aliasName ≠ c.name := fun heq => h3 (by simp [heq])
            have h3'' : c.aliasName ≠ [] → d.aliasName ≠ c.aliasName :=
              fun hne heq => h3 (by simp [heq, hne])
            unfold NoCollide
            intro hcol
            rcases hcol with h1 | ⟨hx, hy⟩ | ⟨hx, hy⟩ | ⟨hx, hy⟩
            · exact h2' h1.symm
            · exact h3'' hy hx.symm
            · exact h3' hx.symm
            · exact h2'' hy hx

/-- A tree accepted by `validateSubcommands` is well-formed at every level. -/
theorem goodTree_of_validate :
    ∀ (cmds : List Cmd), validateSubcommands cmds = .ok () → GoodTree cmds := by
  have main : ∀ (n : Nat) (cmds : List Cmd), sizeOf cmds ≤ n →
      validateSubcommands cmds = .ok () → GoodTree cmds := by
    intro n
    induction n using Nat.strong_induction_on with
    | _ n ih =>
        intro cmds hsize hok
        rw [validateSubcommands] at hok
        obtain ⟨hall, hpw⟩ := validateLoop_ok (sortCmds cmds) [] hok
        have hperm : (sortCmds cmds).Perm cmds := List.perm_insertionSort _ cmds
        refine GoodTree.intro cmds ?_ ?_ ?_
        · exact (hperm.pairwise_iff (fun h => noCollide_symm h)).mp hpw
        · intro c hc
          have hc' : c ∈ sortCmds cmds := hperm.mem_iff.mpr hc
          exact (validateCommand_ok_facts (hall c hc').1).1
        · intro c hc
          have hc' : c ∈ sortCmds cmds := hperm.mem_iff.mpr hc
          obtain ⟨-, -, hsc⟩ := validateCommand_ok_facts (hall c hc').1
          by_cases hlen : c.sub.length = 0
          · have hnil : c.sub = [] := List.length_eq_zero.mp hlen
            rw [hnil]
            exact GoodTree.intro [] (by simp) (by simp) (by simp)
          · have hlt : sizeOf c.sub < n := by
              have h1 := List.sizeOf_lt_of_mem hc
              have h2 := Cmd.sizeOf_sub_lt c
              omega
            exact ih (sizeOf c.sub) hlt c.sub (Nat.le_refl _) (hsc hlen)
  intro cmds h
  exact main (sizeOf cmds) cmds (Nat.le_refl _) h

/-! ## Resolution lemmas -/

theorem lookupCmd_cons (tok : Str) (d : Cmd) (rest : List Cmd) :
    lookupCmd tok (d :: rest) =
      if tok = d.name ∨ tok = d.aliasName then some d else lookupCmd tok rest := by
  by_cases h : tok = d.name ∨ tok = d.aliasName
  · rw [if_pos h]
    unfold lookupCmd
    rw [List.find?_cons_of_pos]
    rcases h with h | h <;> simp [h]
  · rw [if_neg h]
    unfold lookupCmd
    rw [List.find?_cons_of_neg]
    push_neg at h
    simp [h.1, h.2]

/-- In a collision-free level with valid names, looking up the name or the
non-empty alias of a member finds exactly that member. -/
theorem lookupCmd_eq_self {cmds : List Cmd} (hpw : cmds.Pairwise NoCollide)
    (hvalid : ∀ d ∈ cmds, isStringValid d.name = true) {c : Cmd} (hc : c ∈ cmds)
    {tok : Str} (htok : tok = c.name ∨ (tok = c.aliasName ∧ c.aliasName ≠ [])) :
    lookupCmd tok cmds = some c := by
  induction cmds with
  | nil => simp at hc
  | cons d rest ih =>
      rw [lookupCmd_cons]
      rcases List.mem_cons.mp hc with rfl | hc'
      · rw [if_pos]
        rcases htok with h | ⟨h, _⟩
        · exact Or.inl h
        · exact Or.inr h
      · have hnc : NoCollide d c := (List.pairwise_cons.mp hpw).1 c hc'
        have hcnamene : c.name ≠ [] :=
          isStringValid_ne_nil (hvalid c (List.mem_cons_of_mem d hc'))
        have hne : ¬(tok = d.name ∨ tok = d.aliasName) := by
          unfold NoCollide at hnc
          intro hd
          apply hnc
          rcases htok with rfl | ⟨rfl, h3⟩
          · rcases hd with h | h
            · exact Or.inl h.symm
            · exact Or.inr (Or.inr (Or.inr ⟨h, by rw [← h]; exact hcnamene⟩))
          · rcases hd with h | h
            · exact Or.inr (Or.inr (Or.inl ⟨h.symm, h3⟩))
            · exact Or.inr (Or.inl ⟨h.symm, by rw [← h]; exact h3⟩)
        rw [if_neg hne]
        exact ih (List.pairwise_cons.mp hpw).2
          (fun d' hd' => hvalid d' (List.mem_cons_of_mem d hd')) hc'

theorem findCmd_cons_found {cmds : List Cmd} {tok : Str} {c : Cmd} {h : Nat} {rest : List Str}
    (hlk : lookupCmd tok cmds = some c) (hdo : c.doF = some h) :
    findCmd cmds (tok :: rest) = .found h rest := by
  unfold findCmd
  simp only [findLoop, List.length_cons, hlk, hdo]

theorem findCmd_cons_noargs {cmds : List Cmd} {tok : Str} {c : Cmd}
    (hlk : lookupCmd tok cmds = some c) (hdo : c.doF = none) :
    findCmd cmds [tok] = .errNoArgs := by
  unfold findCmd
  simp [findLoop, hlk, hdo]

/-- Interior descent: when the selected token matches an interior command and
arguments remain, resolution continues inside that subtree only. -/
theorem findCmd_cons_descend {cmds : List Cmd} {tok : Str} {c : Cmd} {rest : List Str}
    (hlk : lookupCmd tok cmds = some c) (hdo : c.doF = none) (hrest : rest ≠ []) :
    findCmd cmds (tok :: rest) = findCmd c.sub rest := by
  unfold findCmd
  simp only [findLoop, List.length_cons, hlk, hdo, if_neg hrest]

/-- Resolution miss: the error names the current token and the suggestion is
computed over the current children. -/
theorem findCmd_cons_miss {cmds : List Cmd} {tok : Str} {rest : List Str}
    (hlk : lookupCmd tok cmds = none) :
    findCmd cmds (tok :: rest) = .errNotFound tok (suggestCommand tok cmds) := by
  unfold findCmd
  simp only [findLoop, List.length_cons, hlk]

/-- The subtree reached after consuming a prefix of interior-command tokens. -/
def descend : List Cmd → List Str → Option (List Cmd)
  | cmds, [] => some cmds
  | cmds, t :: p =>
      match lookupCmd t cmds with
      | some c => if c.doF = none then descend c.sub p else none
      | none => none

theorem goodTree_descend (pre : List Str) :
    ∀ (cmds lvl : List Cmd), descend cmds pre = some lvl → GoodTree cmds → GoodTree lvl := by
  induction pre with
  | nil =>
      intro cmds lvl h hg
      obtain rfl : cmds = lvl := by simpa [descend] using h
      exact hg
  | cons t p ih =>
      intro cmds lvl h hg
      simp only [descend] at h
      cases hlk : lookupCmd t cmds with
      | none => simp [hlk] at h
      | some c =>
          simp only [hlk] at h
          split at h
          · exact ih c.sub lvl h (goodTree_subtrees hg c (List.mem_of_find?_eq_some hlk))
          · simp at h

/-- Consuming a descent prefix factors resolution through the reached
subtree. -/
theorem findCmd_path (pre : List Str) :
    ∀ (cmds lvl : List Cmd), descend cmds pre = some lvl →
      ∀ (tok : Str) (rest : List Str),
        findCmd cmds (pre ++ tok :: rest) = findCmd lvl (tok :: rest) := by
  induction pre with
  | nil =>
      intro cmds lvl h tok rest
      obtain rfl : cmds = lvl := by simpa [descend] using h
      rfl
  | cons t p ih =>
      intro cmds lvl h tok rest
      simp only [descend] at h
      cases hlk : lookupCmd t cmds with
      | none => simp [hlk] at h
      | some c =>
          simp only [hlk] at h
          split at h
          · rename_i hdo
            rw [List.cons_append,
              findCmd_cons_descend hlk hdo (by simp)]
            exact ih c.sub lvl h tok rest
          · simp at h

/-- Within one collision-free level, resolving by a non-empty alias is the
same as resolving by the name. -/
theorem findCmd_alias_level {cmds : List Cmd} (hg : GoodTree cmds) {c : Cmd} (hc : c ∈ cmds)
    (ha : c.aliasName ≠ []) (rest : List Str) :
    findCmd cmds (c.aliasName :: rest) = findCmd cmds (c.name :: rest) := by
  have h1 : lookupCmd c.aliasName cmds = some c :=
    lookupCmd_eq_self (goodTree_pairwise hg) (goodTree_valid hg) hc (Or.inr ⟨rfl, ha⟩)
  have h2 : lookupCmd c.name cmds = some c :=
    lookupCmd_eq_self (goodTree_pairwise hg) (goodTree_valid hg) hc (Or.inl rfl)
  cases hdo : c.doF with
  | some h => rw [findCmd_cons_found h1 hdo, findCmd_cons_found h2 hdo]
  | none =>
      by_cases hr : rest = []
      · subst hr
        rw [findCmd_cons_noargs h1 hdo, findCmd_cons_noargs h2 hdo]
      · rw [findCmd_cons_descend h1 hdo hr, findCmd_cons_descend h2 hdo hr]

/-! ## Claim C3 -/

/-- C3: alias equivalence of resolution.  For every tree accepted by
validation, every descent prefix, every command of the reached level with a
non-empty alias, and every residual argument list, resolving with the alias
token at that position yields exactly the same result as resolving with the
name, and when the command is a leaf both resolve to its handler with the
same residual arguments. -/
theorem C3_alias_equivalence :
    ∀ (cmds : List Cmd), validateSubcommands cmds = .ok () →
    ∀ (pre : List Str) (lvl : List Cmd), descend cmds pre = some lvl →
    ∀ c ∈ lvl, c.aliasName ≠ [] →
    ∀ rest : List Str,
      findCmd cmds (pre ++ c.aliasName :: rest) = findCmd cmds (pre ++ c.name :: rest)
      ∧ (∀ h, c.doF = some h →
          findCmd cmds (pre ++ c.aliasName :: rest) = .found h rest) := by
  intro cmds hv pre lvl hdesc c hc ha rest
  have hg := goodTree_of_validate cmds hv
  have hglvl := goodTree_descend pre cmds lvl hdesc hg
  constructor
  · rw [findCmd_path pre cmds lvl hdesc, findCmd_path pre cmds lvl hdesc]
    exact findCmd_alias_level hglvl hc ha rest
  · intro h hdo
    rw [findCmd_path pre cmds lvl hdesc]
    exact findCmd_cons_found
      (lookupCmd_eq_self (goodTree_pairwise hglvl) (goodTree_valid hglvl) hc (Or.inr ⟨rfl, ha⟩)) hdo

/-- Witness for C3 on a one-command validated tree with alias f for foo. -/
theorem C3_alias_equivalence_witness :
    findCmd [Cmd.mk (str "foo") (str "f") (some 5) []] ([] ++ str "f" :: [str "x"]) =
      findCmd [Cmd.mk (str "foo") (str "f") (some 5) []] ([] ++ str "foo" :: [str "x"]) :=
  (C3_alias_equivalence [Cmd.mk (str "foo") (str "f") (some 5) []]
    (by simp [validateSubcommands, validateLoop, validateCommand, sortCmds,
      List.insertionSort, List.orderedInsert, cmdLe, strLt, Cmd.name, Cmd.aliasName,
      Cmd.doF, Cmd.sub, isStringValid, isNameRune, str])
    [] [Cmd.mk (str "foo") (str "f") (some 5) []] rfl
    (Cmd.mk (str "foo") (str "f") (some 5) []) (by simp) (by decide) [str "x"]).1

/-! ## Claim C4 -/

/-- Leaf commands of the end-to-end example tree of the specification. -/
def forCmd : Cmd := Cmd.mk (str "for") [] (some 10) []

def barCmd : Cmd := Cmd.mk (str "bar") [] (some 11) []

def fooCmd : Cmd := Cmd.mk (str "foo") [] none [forCmd]

def testCmd : Cmd := Cmd.mk (str "test") [] none [fooCmd, barCmd]

def statusCmd : Cmd := Cmd.mk (str "status") [] (some 12) []

/-- The example tree: test with children foo (itself interior over for) and
bar, next to the leaf status. -/
def testTree : List Cmd := [testCmd, statusCmd]

/-- C4: scoped resolution failure.  In general resolution descends into a
matched interior subtree and, on a miss, fails with an error naming the
current (inner) token whose suggestion is computed only over the current
children.  Concretely, resolving test foo xyz in the example tree fails on
the inner token xyz (not a root-level token) and its suggestion is the one
computed over the children of foo only, which is empty. -/
theorem C4_scoped_resolution_failure :
    (∀ (cmds : List Cmd) (tok : Str) (c : Cmd) (rest : List Str),
        lookupCmd tok cmds = some c → c.doF = none → rest ≠ [] →
        findCmd cmds (tok :: rest) = findCmd c.sub rest)
    ∧ (∀ (cmds : List Cmd) (tok : Str) (rest : List Str),
        lookupCmd tok cmds = none →
        findCmd cmds (tok :: rest) = .errNotFound tok (suggestCommand tok cmds))
    ∧ findCmd testTree [str "test", str "foo", str "xyz"] =
        .errNotFound (str "xyz") (suggestCommand (str "xyz") fooCmd.sub)
    ∧ fooCmd.sub = [forCmd]
    ∧ suggestCommand (str "xyz") fooCmd.sub = []
    ∧ str "xyz" ≠ str "test" ∧ str "xyz" ≠ str "status"
    ∧ str "xyz" ≠ str "foo" ∧ str "xyz" ≠ str "bar" := by
  refine ⟨?_, ?_, by decide, rfl, by decide, by decide, by decide, by decide, by decide⟩
  · intro cmds tok c rest hlk hdo hrest
    exact findCmd_cons_descend hlk hdo hrest
  · intro cmds tok rest hlk
    exact findCmd_cons_miss hlk

/-- Witness for C4: the descent half applied at the root of the example
tree. -/
theorem C4_scoped_resolution_failure_witness :
    findCmd testTree (str "test" :: [str "foo", str "xyz"]) =
      findCmd testCmd.sub [str "foo", str "xyz"] :=
  C4_scoped_resolution_failure.1 testTree (str "test") testCmd [str "foo", str "xyz"]
    rfl rfl (by decide)

/-! ## Claim C5 -/

/-- Modelled from the spec (amended): the character class of the accepted
name pattern, ASCII upper and lower case letters, digits, dash (45) and
underscore (95).  Colon (58) and dot (46) are not accepted. -/
def nameRuneSpec (c : Nat) : Prop :=
  (65 ≤ c ∧ c ≤ 90) ∨ (97 ≤ c ∧ c ≤ 122) ∨ (48 ≤ c ∧ c ≤ 57) ∨ c = 45 ∨ c = 95

theorem isNameRune_iff (c : Nat) : isNameRune c = true ↔ nameRuneSpec c := by
  unfold isNameRune nameRuneSpec
  simp only [Bool.or_eq_true, Bool.and_eq_true, decide_eq_true_eq, beq_iff_eq]
  tauto

/-- Counterexample to C5 as stated: the claim says names matching
`^[A-Za-z0-9_:.-]+$` such as app:cre.ate pass validation, but `isStringValid`
rejects colon and dot, so validation fails with the invalid-name error. -/
theorem C5_name_pattern_counterexample :
    isStringValid (str "app:cre.ate") = false
    ∧ validateCommand (Cmd.mk (str "app:cre.ate") [] (some 0) []) =
        .error (.invalidName (str "app:cre.ate")) := by
  refine ⟨by decide, ?_⟩
  rw [validateCommand, if_neg (by decide), if_neg (by decide), if_neg (by decide),
    if_neg (by decide), if_pos (by decide)]
  rfl

/-- C5 (amended): validation accepts a command name exactly when it is
non-empty and matches `^[A-Za-z0-9_-]+$`; colon and dot are rejected, so a
name such as app:cre.ate fails validation.  The same pattern applies to a
non-empty alias, and a name or alias outside the pattern fails validation
with an error naming the offending token, provided no earlier switch case of
`validateCommand` fires first. -/
theorem C5_name_pattern :
    (∀ s : Str, isStringValid s = true ↔ (s ≠ [] ∧ ∀ c ∈ s, nameRuneSpec c))
    ∧ (∀ cmd : Cmd, validateCommand cmd = .ok () →
        isStringValid cmd.name = true ∧ (cmd.aliasName ≠ [] → isStringValid cmd.aliasName = true))
    ∧ (∀ cmd : Cmd,
        ¬(cmd.doF = none ∧ cmd.sub.length = 0) →
        ¬(cmd.doF ≠ none ∧ cmd.sub.length ≠ 0) →
        ¬(cmd.name = str "help" ∨ cmd.name = str "version") →
        ¬(cmd.aliasName = str "help" ∨ cmd.aliasName = str "version") →
        isStringValid cmd.name = false →
        validateCommand cmd = .error (.invalidName cmd.name))
    ∧ (∀ cmd : Cmd,
        ¬(cmd.doF = none ∧ cmd.sub.length = 0) →
        ¬(cmd.doF ≠ none ∧ cmd.sub.length ≠ 0) →
        ¬(cmd.name = str "help" ∨ cmd.name = str "version") →
        ¬(cmd.aliasName = str "help" ∨ cmd.aliasName = str "version") →
        isStringValid cmd.name = true →
        cmd.aliasName ≠ [] → isStringValid cmd.aliasName = false →
        validateCommand cmd = .error (.invalidAlias cmd.aliasName))
    ∧ isStringValid (str "app:cre.ate") = false
    ∧ isStringValid (str "app-cre_ate") = true := by
  refine ⟨?_, ?_, ?_, ?_, by decide, by decide⟩
  · intro s
    unfold isStringValid
    by_cases h : s.length = 0
    · rw [if_pos h]
      have : s = [] := List.length_eq_zero.mp h
      simp [this]
    · rw [if_neg h]
      have hne : s ≠ [] := by
        intro hs; rw [hs] at h; simp at h
      simp only [List.all_eq_true, isNameRune_iff]
      exact ⟨fun hall => ⟨hne, hall⟩, fun hp => hp.2⟩
  · intro cmd h
    obtain ⟨h1, h2, _⟩ := validateCommand_ok_facts h
    exact ⟨h1, h2⟩
  · intro cmd h1 h2 h3 h4 h5
    rw [validateCommand, if_neg h1, if_neg h2, if_neg h3, if_neg h4, if_pos h5]
  · intro cmd h1 h2 h3 h4 h5 h6 h7
    rw [validateCommand, if_neg h1, if_neg h2, if_neg h3, if_neg h4,
      if_neg (by simp [h5]), if_pos ⟨h6, h7⟩]

/-- Witness for C5 applied at a concrete command whose name contains a
colon. -/
theorem C5_name_pattern_witness :
    validateCommand (Cmd.mk (str "x:y") [] (some 0) []) =
      .error (.invalidName (str "x:y")) :=
  C5_name_pattern.2.2.1 (Cmd.mk (str "x:y") [] (some 0) [])
    (by decide) (by decide) (by decide) (by decide) (by decide)

/-! ## Claim C6 -/

/-- Collision-freedom at every node of the tree (without any requirement on
name validity). -/
inductive TreeNoCollide : List Cmd → Prop
  | intro (l : List Cmd) (hpw : l.Pairwise NoCollide)
      (hsub : ∀ c ∈ l, TreeNoCollide c.sub) : TreeNoCollide l

theorem treeNoCollide_pairwise {l : List Cmd} (h : TreeNoCollide l) :
    l.Pairwise NoCollide := by
  cases h with | intro _ hpw _ => exact hpw

theorem treeNoCollide_subtrees {l : List Cmd} (h : TreeNoCollide l) :
    ∀ c ∈ l, TreeNoCollide c.sub := by
  cases h with | intro _ _ hsub => exact hsub

theorem treeNoCollide_of_goodTree {l : List Cmd} (h : GoodTree l) : TreeNoCollide l := by
  induction h with
  | intro l hpw hvalid hsub ih => exact TreeNoCollide.intro l hpw ih

/-- The duplicate-kind validation errors. -/
def isDupErr : VErr → Prop
  | .dupName _ => True
  | .dupAlias _ => True
  | _ => False

/-- Invariant of the scanning loop: every token in the seen set is the name
of an already validated earlier sibling or the non-empty alias of an earlier
sibling, and that sibling does not collide with any remaining command. -/
def SeenInv (l : List Cmd) (seen : List Str) : Prop :=
  ∀ t ∈ seen, ∃ d : Cmd, (∀ c ∈ l, NoCollide d c) ∧
    ((t = d.name ∧ validateCommand d = .ok ()) ∨ (t = d.aliasName ∧ t ≠ []))

/-- On a collision-free input the duplicate checks can never fire, so any
validation error is of another kind. -/
theorem notDup_main : ∀ n : Nat,
    (∀ c : Cmd, sizeOf c ≤ n → TreeNoCollide c.sub →
      ∀ e, validateCommand c = .error e → ¬ isDupErr e)
    ∧ (∀ (l : List Cmd) (seen : List Str), sizeOf l ≤ n → l.Pairwise NoCollide →
        (∀ c ∈ l, TreeNoCollide c.sub) → SeenInv l seen →
        ∀ e, validateLoop l seen = .error e → ¬ isDupErr e)
    ∧ (∀ cmds : List Cmd, sizeOf cmds ≤ n → TreeNoCollide cmds →
        ∀ e, validateSubcommands cmds = .error e → ¬ isDupErr e) := by
  intro n
  induction n using Nat.strong_induction_on with
  | _ n ih =>
      have hB : ∀ (l : List Cmd) (seen : List Str), sizeOf l ≤ n → l.Pairwise NoCollide →
          (∀ c ∈ l, TreeNoCollide c.sub) → SeenInv l seen →
          ∀ e, validateLoop l seen = .error e → ¬ isDupErr e := by
        intro l seen hsize hpw hsubs hinv e herr
        cases l with
        | nil => rw [validateLoop] at herr; exact absurd herr (by simp)
        | cons c rest =>
            rw [validateLoop] at herr
            split at herr
            · rename_i hmem
              obtain ⟨d, hdall, hcase⟩ := hinv c.name hmem
              have hnc : NoCollide d c := hdall c (List.mem_cons_self c rest)
              exfalso
              apply hnc
              rcases hcase with ⟨h1, _⟩ | ⟨h1, h2⟩
              · exact Or.inl h1.symm
              · exact Or.inr (Or.inr (Or.inr ⟨h1, by rw [← h1]; exact h2⟩))
            split at herr
            · rename_i hmem
              obtain ⟨d, hdall, hcase⟩ := hinv c.aliasName hmem
              have hnc : NoCollide d c := hdall c (List.mem_cons_self c rest)
              exfalso
              apply hnc
              rcases hcase with ⟨h1, hok⟩ | ⟨h1, h2⟩
              · have hdnn := isStringValid_ne_nil (validateCommand_ok_facts hok).1
                exact Or.inr (Or.inr (Or.inl ⟨h1.symm, by rw [h1]; exact hdnn⟩))
              · exact Or.inr (Or.inl ⟨h1.symm, by rw [← h1]; exact h2⟩)
            · cases hvc : validateCommand c with
              | error e' =>
                  simp only [hvc] at herr
                  injection herr with h
                  subst h
                  have hlt : sizeOf c < n := by
                    simp only [List.cons.sizeOf_spec] at hsize
                    omega
                  exact (ih (sizeOf c) hlt).1 c (Nat.le_refl _)
                    (hsubs c (List.mem_cons_self c rest)) e' hvc
              | ok u =>
                  cases u
                  simp only [hvc] at herr
                  have hlt : sizeOf rest < n := by
                    simp only [List.cons.sizeOf_spec] at hsize
                    omega
                  apply (ih (sizeOf rest) hlt).2.1 rest _ (Nat.le_refl _)
                    (List.pairwise_cons.mp hpw).2
                    (fun c' hc' => hsubs c' (List.mem_cons_of_mem c hc')) ?_ e herr
                  intro t ht
                  have hsplit : t ∈ seen ∨ t = c.name ∨ (t = c.aliasName ∧ c.aliasName ≠ []) := by
                    rcases List.mem_append.mp ht with h1 | h2
                    · rcases List.mem_append.mp h1 with h3 | h4
                      · exact Or.inl h3
                      · exact Or.inr (Or.inl (List.mem_singleton.mp h4))
                    · by_cases hal : c.aliasName = []
                      · simp [hal] at h2
                      · simp only [if_pos hal] at h2
                        exact Or.inr (Or.inr ⟨List.mem_singleton.mp h2, hal⟩)
                  rcases hsplit with h1 | h2 | ⟨h3, h4⟩
                  · obtain ⟨d, hdall, hcase⟩ := hinv t h1
                    exact ⟨d, fun c' hc' => hdall c' (List.mem_cons_of_mem c hc'), hcase⟩
                  · exact ⟨c, (List.pairwise_cons.mp hpw).1, Or.inl ⟨h2, hvc⟩⟩
                  · exact ⟨c, (List.pairwise_cons.mp hpw).1, Or.inr ⟨h3, by rw [h3]; exact h4⟩⟩
      refine ⟨?_, hB, ?_⟩
      · intro c hsize htnc e herr
        rw [validateCommand] at herr
        split at herr
        · injection herr with h; subst h; simp [isDupErr]
        split at herr
        · injection herr with h; subst h; simp [isDupErr]
        split at herr
        · injection herr with h; subst h; simp [isDupErr]
        split at herr
        · injection herr with h; subst h; simp [isDupErr]
        split at herr
        · injection herr with h; subst h; simp [isDupErr]
        split at herr
        · injection herr with h; subst h; simp [isDupErr]
        split at herr
        · have hlt : sizeOf c.sub < n := by
            have := Cmd.sizeOf_sub_lt c
            omega
          exact (ih (sizeOf c.sub) hlt).2.2 c.sub (Nat.le_refl _) htnc e herr
        · exact absurd herr (by simp)
      · intro cmds hsize htnc e herr
        rw [validateSubcommands] at herr
        have hperm : (sortCmds cmds).Perm cmds := List.perm_insertionSort _ cmds
        have hsz : sizeOf (sortCmds cmds) = sizeOf cmds := hperm.sizeOf_eq_sizeOf
        apply hB (sortCmds cmds) [] (by omega)
          ((hperm.pairwise_iff (fun h => noCollide_symm h)).mpr (treeNoCollide_pairwise htnc))
          (fun c hc => treeNoCollide_subtrees htnc c (hperm.mem_iff.mp hc))
          (fun t ht => by simp at ht) e herr

/-- Counterexample to C6 as stated: a tree where one sibling name equals
another sibling non-empty alias does fail validation, but not with a
duplicate error — the individually invalid first sibling (nil handler, no
subcommands) is reported before the duplicate check for the second sibling
runs. -/
theorem C6_sibling_uniqueness_counterexample :
    (Cmd.mk (str "a") [] none []).name = (Cmd.mk (str "b") (str "a") (some 0) []).aliasName
    ∧ (Cmd.mk (str "b") (str "a") (some 0) []).aliasName ≠ []
    ∧ validateSubcommands [Cmd.mk (str "a") [] none [], Cmd.mk (str "b") (str "a") (some 0) []] =
        .error (.nilFunction (str "a"))
    ∧ validateSubcommands [Cmd.mk (str "a") [] none [], Cmd.mk (str "b") (str "a") (some 0) []] ≠
        .error (.dupName (str "a"))
    ∧ validateSubcommands [Cmd.mk (str "a") [] none [], Cmd.mk (str "b") (str "a") (some 0) []] ≠
        .error (.dupAlias (str "a")) := by
  have hval : validateSubcommands
      [Cmd.mk (str "a") [] none [], Cmd.mk (str "b") (str "a") (some 0) []] =
        .error (.nilFunction (str "a")) := by
    simp [validateSubcommands, validateLoop, validateCommand, sortCmds,
      List.insertionSort, List.orderedInsert, cmdLe, strLt, Cmd.name, Cmd.aliasName,
      Cmd.doF, Cmd.sub, isStringValid, isNameRune, str]
  refine ⟨by decide, by decide, hval, ?_, ?_⟩
  · rw [hval]; intro h; injection h with h2; exact absurd h2 (by decide)
  · rw [hval]; intro h; injection h with h2; exact absurd h2 (by decide)

/-- C6 (amended): a sibling collision anywhere in the tree (shared name,
shared non-empty alias, or name equal to a sibling non-empty alias) makes
validation fail with some error, though not necessarily a duplicate error
when an individually invalid sibling precedes the collision in the sorted
scan; a tree with no such collision at any node never fails with a
duplicate-kind error; and for each collision kind among otherwise valid
siblings the scan reports the duplicate error naming the colliding token. -/
theorem C6_sibling_uniqueness :
    (∀ cmds : List Cmd, ¬ TreeNoCollide cmds → ∃ e, validateSubcommands cmds = .error e)
    ∧ (∀ cmds : List Cmd, TreeNoCollide cmds →
        ∀ e, validateSubcommands cmds = .error e → ¬ isDupErr e)
    ∧ validateSubcommands [Cmd.mk (str "a") [] (some 0) [], Cmd.mk (str "a") [] (some 0) []] =
        .error (.dupName (str "a"))
    ∧ validateSubcommands [Cmd.mk (str "aaa") (str "x") (some 0) [],
        Cmd.mk (str "bbb") (str "x") (some 0) []] = .error (.dupAlias (str "x"))
    ∧ validateSubcommands [Cmd.mk (str "aaa") [] (some 0) [],
        Cmd.mk (str "bbb") (str "aaa") (some 0) []] = .error (.dupAlias (str "aaa")) := by
  refine ⟨?_, ?_, ?_, ?_, ?_⟩
  · intro cmds hncol
    cases h : validateSubcommands cmds with
    | error e => exact ⟨e, rfl⟩
    | ok u =>
        cases u
        exact absurd (treeNoCollide_of_goodTree (goodTree_of_validate cmds h)) hncol
  · intro cmds htnc e herr
    exact (notDup_main (sizeOf cmds)).2.2 cmds (Nat.le_refl _) htnc e herr
  · simp [validateSubcommands, validateLoop, validateCommand, sortCmds,
      List.insertionSort, List.orderedInsert, cmdLe, strLt, Cmd.name, Cmd.aliasName,
      Cmd.doF, Cmd.sub, isStringValid, isNameRune, str]
  · simp [validateSubcommands, validateLoop, validateCommand, sortCmds,
      List.insertionSort, List.orderedInsert, cmdLe, strLt, Cmd.name, Cmd.aliasName,
      Cmd.doF, Cmd.sub, isStringValid, isNameRune, str]
  · simp [validateSubcommands, validateLoop, validateCommand, sortCmds,
      List.insertionSort, List.orderedInsert, cmdLe, strLt, Cmd.name, Cmd.aliasName,
      Cmd.doF, Cmd.sub, isStringValid, isNameRune, str]

/-- Witness for C6: the no-duplicate-error half applied at a concrete
collision-free tree whose only command is individually invalid. -/
theorem C6_sibling_uniqueness_witness :
    ¬ isDupErr (.nilFunction (str "a")) :=
  C6_sibling_uniqueness.2.1 [Cmd.mk (str "a") [] none []]
    (TreeNoCollide.intro _ (by simp)
      (by
        intro c hc
        simp only [List.mem_singleton] at hc
        subst hc
        exact TreeNoCollide.intro [] (by simp) (by simp)))
    (.nilFunction (str "a"))
    (by simp [validateSubcommands, validateLoop, validateCommand, sortCmds,
      List.insertionSort, List.orderedInsert, cmdLe, strLt, Cmd.name, Cmd.aliasName,
      Cmd.doF, Cmd.sub, isStringValid, isNameRune, str])

/-! ## Claim C7 -/

/-- Concrete runner used for the C7 and C8 scenarios: one leaf command foo
whose handler (identifier 7) returns `ErrCode 42`. -/
def cfg7 : Config := Config.mk (str "app") [str "prog", str "foo"]

def cmds7 : List Cmd := [Cmd.mk (str "foo") [] (some 7) []]

def env7 : Nat → List Str → Option GoErr :=
  fun h _ => if h = 7 then some (.errCode 42) else none

theorem validateSubcommands_cmds7 : validateSubcommands cmds7 = .ok () := by
  simp [validateSubcommands, validateLoop, validateCommand, cmds7, sortCmds,
    List.insertionSort, List.orderedInsert, cmdLe, strLt, Cmd.name, Cmd.aliasName,
    Cmd.doF, Cmd.sub, isStringValid, isNameRune, str]

theorem validateRoot_cmds7 : validateCommand (Cmd.mk (str "root") [] none cmds7) = .ok () := by
  rw [validateCommand, if_neg (by decide), if_neg (by decide), if_neg (by decide),
    if_neg (by decide), if_neg (by decide), if_neg (by decide), if_pos (by decide)]
  exact validateSubcommands_cmds7

theorem runnerInit_cfg7 : runnerInit cfg7 cmds7 = .ok (str "app", [str "foo"]) := by
  unfold runnerInit
  rw [if_neg (by decide), if_neg (by decide)]
  simp only [validateRoot_cmds7]
  rfl

theorem sortCmds_cfg7 :
    sortCmds (cmds7 ++ builtinCmds) =
      [Cmd.mk (str "foo") [] (some 7) [], Cmd.mk (str "help") [] (some 0) [],
       Cmd.mk (str "version") [] (some 1) []] := by
  simp [sortCmds, cmds7, builtinCmds, List.insertionSort, List.orderedInsert, cmdLe,
    strLt, Cmd.name, str]

theorem findCmd_cfg7 : findCmd (sortCmds (cmds7 ++ builtinCmds)) [str "foo"] = .found 7 [] := by
  rw [sortCmds_cfg7]
  exact findCmd_cons_found (c := Cmd.mk (str "foo") [] (some 7) []) rfl rfl

theorem runnerRun_cfg7 :
    runnerRun env7 cfg7 cmds7 = .error (.wrap (str "got error: ") (.errCode 42)) := by
  unfold runnerRun
  rw [runnerInit_cfg7]
  simp only [findCmd_cfg7, env7]
  simp

theorem wrap_ne_inner (p : Str) (e : GoErr) : GoErr.wrap p e ≠ e := by
  intro h
  have hs := congrArg sizeOf h
  simp only [GoErr.wrap.sizeOf_spec] at hs
  omega

/-- Counterexample to C7 as stated: the handler returns `ErrCode 42`, but
`Run` does not return that value unchanged — it returns it wrapped in the
got-error prefix. -/
theorem C7_handler_error_counterexample :
    runnerRun env7 cfg7 cmds7 = .error (.wrap (str "got error: ") (.errCode 42))
    ∧ runnerRun env7 cfg7 cmds7 ≠ .error (.errCode 42) := by
  refine ⟨runnerRun_cfg7, ?_⟩
  rw [runnerRun_cfg7]
  intro h
  injection h with h2
  exact wrap_ne_inner _ _ h2

/-- C7 (amended): for every leaf command whose handler returns a non-nil
error `e`, `Runner.Run` returns `e` wrapped in the got-error prefix — a
value different from `e` itself — whose unwrap chain preserves `e`, so
`errors.As` still recovers the original error, including the
exit-code-carrying `ErrCode` variant. -/
theorem C7_handler_error_wrapped :
    ∀ (env : Nat → List Str → Option GoErr) (cfg : Config) (cmds : List Cmd)
      (s : Str × List Str) (h : Nat) (params : List Str) (e : GoErr),
      runnerInit cfg cmds = .ok s →
      findCmd (sortCmds (cmds ++ builtinCmds)) s.2 = .found h params →
      env h params = some e →
      runnerRun env cfg cmds = .error (.wrap (str "got error: ") e)
      ∧ GoErr.wrap (str "got error: ") e ≠ e
      ∧ asErrCode (.wrap (str "got error: ") e) = asErrCode e := by
  intro env cfg cmds s h params e hinit hfind henv
  refine ⟨?_, wrap_ne_inner _ _, rfl⟩
  unfold runnerRun
  rw [hinit]
  simp only [hfind, henv]

/-- Witness for C7 at the concrete `ErrCode 42` scenario. -/
theorem C7_handler_error_wrapped_witness :
    runnerRun env7 cfg7 cmds7 = .error (.wrap (str "got error: ") (.errCode 42)) :=
  (C7_handler_error_wrapped env7 cfg7 cmds7 (str "app", [str "foo"]) 7 [] (.errCode 42)
    runnerInit_cfg7 findCmd_cfg7 rfl).1

/-! ## Claim C8 -/

/-- Counterexample to C8 as stated: passing the error produced by `Run` for a
handler-returned `ErrCode 42` to `Exit` does exit with status 42, but the
printed line is `appName: got error: code 42`, not `appName: code 42`. -/
theorem C8_exit_mapping_counterexample :
    runnerExit (str "ci") (some (.wrap (str "got error: ") (.errCode 42))) =
      (42, [str "ci: got error: code 42\n"])
    ∧ [str "ci: got error: code 42\n"] ≠ [str "ci: code 42\n"] := by
  constructor
  · decide
  · decide

/-- C8 (amended): when a handler returns `ErrCode 42` the resulting error
from `Run` passed to `Runner.Exit` requests termination with status 42 and
prints exactly `appName: got error: code 42` plus newline (the got-error
prefix comes from the wrap `Run` adds); `Exit` on nil exits 0 and prints
nothing; an error carrying no `ErrCode` in its unwrap chain yields status 1,
and one carrying `ErrCode n` yields status `n`, each after printing
`appName: message`. -/
theorem C8_exit_mapping :
    (∀ (app : Str) (n : Int),
        runnerExit app (some (.wrap (str "got error: ") (.errCode n))) =
          (n, [app ++ str ": " ++ (str "got error: " ++ errMsg (.errCode n)) ++ str "\n"]))
    ∧ (∀ app : Str, runnerExit app none = (0, []))
    ∧ (∀ (app : Str) (e : GoErr), asErrCode e = none →
        runnerExit app (some e) = (1, [app ++ str ": " ++ errMsg e ++ str "\n"]))
    ∧ (∀ (app : Str) (e : GoErr) (n : Int), asErrCode e = some n →
        runnerExit app (some e) = (n, [app ++ str ": " ++ errMsg e ++ str "\n"]))
    ∧ runnerExit (str "ci") (some (.wrap (str "got error: ") (.errCode 42))) =
        (42, [str "ci: got error: code 42\n"]) := by
  refine ⟨?_, fun app => rfl, ?_, ?_, by decide⟩
  · intro app n
    simp [runnerExit, asErrCode, errMsg]
  · intro app e h
    simp [runnerExit, h]
  · intro app e n h
    simp [runnerExit, h]

/-- Witness for C8: the no-exit-code half applied at a concrete resolution
error. -/
theorem C8_exit_mapping_witness :
    runnerExit (str "a") (some (.notFound (str "x"))) =
      (1, [str "a" ++ str ": " ++ errMsg (.notFound (str "x")) ++ str "\n"]) :=
  C8_exit_mapping.2.2.1 (str "a") (.notFound (str "x")) rfl

/-! ## Claim C10 -/

/-- C10: with a supplied (non-nil) `Config.Args`, the first element is always
treated as the program name: it becomes the default `AppName` when `AppName`
is empty, it is stripped before dispatch (the remaining state is exactly the
tail), and it is never matched against any command name or alias (the result
of `Run` does not depend on it).  A supplied `Args` of length 0 or 1 makes
init fail with `ErrNoArgs`, so `Run` returns the wrapped init error and no
handler runs. -/
theorem C10_args_first_element :
    (∀ (cfg : Config) (cmds : List Cmd), cfg.args.length ≤ 1 →
        runnerInit cfg cmds = .error .noArgs
        ∧ ∀ env, runnerRun env cfg cmds = .error (.wrap (str "init error: ") .noArgs))
    ∧ (∀ (cfg : Config) (cmds : List Cmd) (a0 : Str) (rest : List Str) (s : Str × List Str),
        cfg.args = a0 :: rest →
        runnerInit cfg cmds = .ok s →
        s.1 = (if cfg.appName = [] then a0 else cfg.appName) ∧ s.2 = rest)
    ∧ (∀ (env : Nat → List Str → Option GoErr) (app a0 a0' : Str) (rest : List Str)
        (cmds : List Cmd),
        runnerRun env (Config.mk app (a0 :: rest)) cmds =
          runnerRun env (Config.mk app (a0' :: rest)) cmds) := by
  refine ⟨?_, ?_, ?_⟩
  · intro cfg cmds hlen
    have hinit : runnerInit cfg cmds = .error .noArgs := by
      unfold runnerInit
      match hargs : cfg.args with
      | [] => simp
      | [a] => simp
      | a :: b :: t => rw [hargs] at hlen; simp at hlen
    refine ⟨hinit, fun env => ?_⟩
    unfold runnerRun
    rw [hinit]
  · intro cfg cmds a0 rest s hargs hinit
    unfold runnerInit at hinit
    rw [hargs, if_neg (by simp)] at hinit
    simp only [List.tail_cons, List.headD_cons] at hinit
    by_cases hr : rest.length = 0
    · rw [if_pos hr] at hinit
      exact absurd hinit (by simp)
    · rw [if_neg hr] at hinit
      cases hvc : validateCommand (Cmd.mk (str "root") [] none cmds) with
      | error e => simp only [hvc] at hinit; exact absurd hinit (by simp)
      | ok u =>
          simp only [hvc] at hinit
          injection hinit with h
          rw [← h]
          exact ⟨rfl, rfl⟩
  · intro env app a0 a0' rest cmds
    unfold runnerRun runnerInit
    by_cases hr : rest.length = 0
    · simp [hr]
    · simp only [List.length_cons, List.tail_cons, List.headD_cons,
        if_neg (by omega : ¬rest.length + 1 = 0), if_neg hr]
      cases validateCommand (Cmd.mk (str "root") [] none cmds) with
      | error e => rfl
      | ok u => rfl

/-- Witness for C10: a supplied argument vector of length one fails init with
the no-args error. -/
theorem C10_args_first_element_witness :
    runnerInit (Config.mk (str "app") [str "prog"]) [Cmd.mk (str "foo") [] (some 7) []] =
      .error .noArgs :=
  (C10_args_first_element.1 (Config.mk (str "app") [str "prog"])
    [Cmd.mk (str "foo") [] (some 7) []] (by decide)).1
